import Mathlib

/-!
Shallow embedding of `keras_retinanet/losses.py`: the focal classification
loss and the smooth-L1 regression loss with homoscedastic uncertainty
weighting, together with the constructor functions `focal` and `smooth_l1`.

Tensors of shape (B, N, C) are flattened over the batch dimension and
modelled as lists of rows (`List (List ℝ)`), one row per anchor; every
operation the losses perform (elementwise formulas, filtering on the
anchor-state channel, global sums) commutes with this flattening.
-/

open Real

noncomputable section

/-- Function computed by `tf.math.erf`: the Gauss error function. -/
def erf (x : ℝ) : ℝ := 2 / Real.sqrt Real.pi * ∫ t in (0:ℝ)..x, Real.exp (-(t ^ 2))

/-- Clipping constant `keras.backend.epsilon()` used by
`keras.backend.binary_crossentropy`. -/
def kerasEpsilon : ℝ := 1e-7

/-- Pointwise `keras.backend.binary_crossentropy(target, output)`: the output
is clipped to `[eps, 1 - eps]` before the cross-entropy is taken. -/
def binary_crossentropy (target output : ℝ) : ℝ :=
  let o := max kerasEpsilon (min (1 - kerasEpsilon) output);
  -(target * Real.log o + (1 - target) * Real.log (1 - o))

/-- Indices, with starting offset `k`, of the entries of the list equal to
`v`: this is `tf.where(keras.backend.equal(xs, v))` on a flattened channel. -/
def whereEq (v : ℝ) : List ℝ → ℕ → List ℕ
  | [], _ => []
  | x :: rest, k => if x = v then k :: whereEq v rest (k + 1) else whereEq v rest (k + 1)

/-- Indices, with starting offset `k`, of the entries of the list different
from `v`: this is `tf.where(keras.backend.not_equal(xs, v))`. -/
def whereNe (v : ℝ) : List ℝ → ℕ → List ℕ
  | [], _ => []
  | x :: rest, k => if x ≠ v then k :: whereNe v rest (k + 1) else whereNe v rest (k + 1)

/-- Selection `tf.gather_nd`: pick the rows of `rows` at the given indices. -/
def gather_nd (rows : List (List ℝ)) (idx : List ℕ) : List (List ℝ) :=
  idx.filterMap fun i => rows.get? i

/-- Channel `y_true[:, :, -1]`, the anchor state of every anchor
(-1 ignore, 0 background, 1 object). -/
def anchorStates (y_true : List (List ℝ)) : List ℝ :=
  y_true.map fun r => r.getLastD 0

/-- Factor `alpha_factor` of `_focal`: `alpha` where the label exceeds the
cutoff, `1 - alpha` elsewhere. -/
def alpha_factor (alpha cutoff l : ℝ) : ℝ :=
  if l > cutoff then alpha else 1 - alpha

/-- Weight `focal_weight` of `_focal` before the `gamma` power, exactly as the
code writes it: the negative branch uses the double negation
`1 - (1 - classification)`. -/
def focal_weight (cutoff sigma_var l p : ℝ) : ℝ :=
  if l > cutoff then (1 - p) ^ Real.exp (-sigma_var) * Real.exp (-0.5 * sigma_var)
  else (1 - (1 - p)) ^ Real.exp (-sigma_var) * Real.exp (-0.5 * sigma_var)

/-- Focal weight as the specification phrases it: the negative branch is
written directly on the prediction `p`. -/
def focal_weight_specform (cutoff sigma_var l p : ℝ) : ℝ :=
  if l > cutoff then (1 - p) ^ Real.exp (-sigma_var) * Real.exp (-0.5 * sigma_var)
  else p ^ Real.exp (-sigma_var) * Real.exp (-0.5 * sigma_var)

/-- Uncertainty-scaled cross-entropy term of `_focal`:
`binary_crossentropy(labels, classification) * exp(-sigma_var) + sigma_var / 2`. -/
def focal_ce (sigma_var l p : ℝ) : ℝ :=
  binary_crossentropy l p * Real.exp (-sigma_var) + sigma_var / 2

/-- Per-element focal loss, one entry of `cls_loss`. -/
def focal_elem (alpha gamma cutoff sigma_var l p : ℝ) : ℝ :=
  alpha_factor alpha cutoff l * focal_weight cutoff sigma_var l p ^ gamma
    * focal_ce sigma_var l p

/-- Loss body `_focal(y_true, y_pred)`: split off the anchor-state channel,
drop "ignore" anchors from labels and predictions with one shared index set,
sum the per-element focal losses and divide by the number of positive anchors
in the full state channel, floored at 1. -/
def _focal (alpha gamma cutoff sigma_var : ℝ) (y_true y_pred : List (List ℝ)) : ℝ :=
  let labels := y_true.map List.dropLast
  let anchor_state := anchorStates y_true
  let classification := y_pred
  let indices := whereNe (-1) anchor_state 0
  let labels2 := gather_nd labels indices
  let classification2 := gather_nd classification indices
  let cls_loss := (labels2.zip classification2).map fun lp =>
    ((lp.1.zip lp.2).map fun xy => focal_elem alpha gamma cutoff sigma_var xy.1 xy.2).sum
  let normalizer := max (1 : ℝ) ((whereEq 1 anchor_state 0).length : ℝ)
  cls_loss.sum / normalizer

/-- Numerator of `_focal`: the sum of all per-element focal losses over the
anchors that survive the ignore filter. -/
def focal_sum (alpha gamma cutoff sigma_var : ℝ) (y_true y_pred : List (List ℝ)) : ℝ :=
  let labels2 := gather_nd (y_true.map List.dropLast) (whereNe (-1) (anchorStates y_true) 0)
  let classification2 := gather_nd y_pred (whereNe (-1) (anchorStates y_true) 0)
  ((labels2.zip classification2).map fun lp =>
    ((lp.1.zip lp.2).map fun xy => focal_elem alpha gamma cutoff sigma_var xy.1 xy.2).sum).sum

/-- Focal pipeline with the focal weight removed: the sum of the scaled
cross-entropy terms over the filtered anchors, divided by the same
normalizer as `_focal`. -/
def focal_ce_loss (sigma_var : ℝ) (y_true y_pred : List (List ℝ)) : ℝ :=
  let labels2 := gather_nd (y_true.map List.dropLast) (whereNe (-1) (anchorStates y_true) 0)
  let classification2 := gather_nd y_pred (whereNe (-1) (anchorStates y_true) 0)
  (((labels2.zip classification2).map fun lp =>
    ((lp.1.zip lp.2).map fun xy => focal_ce sigma_var xy.1 xy.2).sum).sum)
    / max (1 : ℝ) ((whereEq 1 (anchorStates y_true) 0).length : ℝ)

/-- Quadratic branch of the smooth-L1 formula:
`factor * diff^2 + 0.5 * sigma_var` with `factor = 1 / (2 * exp sigma_var)`. -/
def smooth_l1_quad (_sigma_squared sigma_var d : ℝ) : ℝ :=
  1 / (2 * Real.exp sigma_var) * d ^ 2 + 0.5 * sigma_var

/-- Erf/log branch of the smooth-L1 formula, transcribed literally from the
code (with `factor = 1 / (2 * exp sigma_var)`). -/
def smooth_l1_log (sigma_squared sigma_var d : ℝ) : ℝ :=
  -(1 / sigma_squared)
      * Real.log (1 - erf (Real.sqrt (1 / (2 * Real.exp sigma_var)) / sigma_squared)) * d
    + Real.log (1 - erf (Real.sqrt (1 / (2 * Real.exp sigma_var)) / sigma_squared))
    + 1 / (2 * Real.exp sigma_var) / sigma_squared ^ 2
    + 0.5 * sigma_var

/-- Per-element smooth-L1 loss on the absolute difference `d`. -/
def smooth_l1_elem (sigma_squared sigma_var d : ℝ) : ℝ :=
  if d < 1 / sigma_squared then smooth_l1_quad sigma_squared sigma_var d
  else smooth_l1_log sigma_squared sigma_var d

/-- Loss body `_smooth_l1(y_true, y_pred)`: split off the anchor-state
channel, keep only anchors with state 1 (one shared index set for targets and
predictions), apply the piecewise formula to the absolute differences, sum
and divide by the number of selected anchors floored at 1. -/
def _smooth_l1 (sigma sigma_var : ℝ) (y_true y_pred : List (List ℝ)) : ℝ :=
  let sigma_squared := sigma ^ 2
  let regression := y_pred
  let regression_target := y_true.map List.dropLast
  let anchor_state := anchorStates y_true
  let indices := whereEq 1 anchor_state 0
  let regression2 := gather_nd regression indices
  let regression_target2 := gather_nd regression_target indices
  let regression_loss := (regression2.zip regression_target2).map fun pt =>
    ((pt.1.zip pt.2).map fun xy => smooth_l1_elem sigma_squared sigma_var |xy.1 - xy.2|).sum
  let normalizer := max (1 : ℝ) ((indices.length : ℕ) : ℝ)
  regression_loss.sum / normalizer

/-- Observable part of a TensorFlow variable as this module creates it. -/
structure TFVariable where
  name : String
  initial_value : ℝ
  trainable : Bool

/-- Collection of the current variable values held by the framework. -/
abbrev Store := String → ℝ

/-- Constructor `focal(alpha, gamma, cutoff, sigma_var)`: when no variable is
supplied, a fresh trainable scalar named "sigma_sq_focal" with initial value 0
is created; the returned pair is the loss closure (reading the variable's
current value from the store) and the variable. -/
def focal (alpha gamma cutoff : ℝ) (sigma_var : Option TFVariable) :
    (Store → List (List ℝ) → List (List ℝ) → ℝ) × TFVariable :=
  let sv := sigma_var.getD ⟨"sigma_sq_focal", 0, true⟩
  (fun store y_true y_pred => _focal alpha gamma cutoff (store sv.name) y_true y_pred, sv)

/-- Constructor `smooth_l1(sigma, sigma_var)`: when no variable is supplied,
a fresh trainable scalar named "sigma_sq_smooth_l1" with initial value 0 is
created; the returned pair is the loss closure and the variable. -/
def smooth_l1 (sigma : ℝ) (sigma_var : Option TFVariable) :
    (Store → List (List ℝ) → List (List ℝ) → ℝ) × TFVariable :=
  let sv := sigma_var.getD ⟨"sigma_sq_smooth_l1", 0, true⟩
  (fun store y_true y_pred => _smooth_l1 sigma (store sv.name) y_true y_pred, sv)

/-- Evaluation of a loss functor as a state transformer on the variable
store: the loss bodies contain no assignment, so the store passes through. -/
def eval_loss (f : Store → List (List ℝ) → List (List ℝ) → ℝ)
    (store : Store) (y_true y_pred : List (List ℝ)) : ℝ × Store :=
  (f store y_true y_pred, store)

end

/-! ### Helper lemmas -/

theorem whereNe_eq_nil {v : ℝ} {xs : List ℝ} (h : ∀ x ∈ xs, x = v) :
    ∀ k, whereNe v xs k = [] := by
  induction xs with
  | nil => intro k; rfl
  | cons x rest ih =>
    intro k
    have hx : x = v := h x (by simp)
    simp only [whereNe, hx]
    rw [if_neg (by simp)]
    exact ih (fun y hy => h y (by simp [hy])) (k + 1)

theorem whereEq_eq_nil {v : ℝ} {xs : List ℝ} (h : ∀ x ∈ xs, x ≠ v) :
    ∀ k, whereEq v xs k = [] := by
  induction xs with
  | nil => intro k; rfl
  | cons x rest ih =>
    intro k
    simp only [whereEq]
    rw [if_neg (h x (by simp))]
    exact ih (fun y hy => h y (by simp [hy])) (k + 1)

/-! ### Claims -/

/-- C4. In the focal loss, the focal-weight factor equals
`(1-p) ^ exp (-sigma_var) * exp (-0.5 * sigma_var)` when the label exceeds
the cutoff and `p ^ exp (-sigma_var) * exp (-0.5 * sigma_var)` otherwise: the
code's double negation `1 - (1 - classification)` in the negative branch
equals the prediction itself, so the code's branch equals the spec's
formula. -/
theorem focal_weight_eq_specform (cutoff sigma_var l p : ℝ) :
    focal_weight cutoff sigma_var l p = focal_weight_specform cutoff sigma_var l p := by
  unfold focal_weight focal_weight_specform
  rw [show (1:ℝ) - (1 - p) = p by ring]

/-- C1. When no anchor has positive state (every state equals `-1` for the
classification loss; no state equals `1` for the regression loss), the
normalizer of each loss is floored at `1` and both losses return exactly
`0`. -/
theorem all_ignored_losses_zero (alpha gamma cutoff sv sigma sv2 : ℝ)
    (ytc ypc ytr ypr : List (List ℝ))
    (hc : ∀ r ∈ ytc, r.getLastD 0 = -1)
    (hr : ∀ r ∈ ytr, r.getLastD 0 ≠ 1) :
    (max (1:ℝ) ((whereEq 1 (anchorStates ytc) 0).length : ℝ) = 1
      ∧ _focal alpha gamma cutoff sv ytc ypc = 0)
    ∧ (max (1:ℝ) ((whereEq 1 (anchorStates ytr) 0).length : ℝ) = 1
      ∧ _smooth_l1 sigma sv2 ytr ypr = 0) := by
  have hc' : ∀ x ∈ anchorStates ytc, x = -1 := by
    intro x hx
    rcases List.mem_map.mp hx with ⟨r, hr', rfl⟩
    exact hc r hr'
  have hr' : ∀ x ∈ anchorStates ytr, x ≠ 1 := by
    intro x hx
    rcases List.mem_map.mp hx with ⟨r, hm, rfl⟩
    exact hr r hm
  have hne : whereNe (-1) (anchorStates ytc) 0 = [] :=
    whereNe_eq_nil hc' 0
  have heqc : whereEq 1 (anchorStates ytc) 0 = [] :=
    whereEq_eq_nil (fun x hx => by rw [hc' x hx]; norm_num) 0
  have heqr : whereEq 1 (anchorStates ytr) 0 = [] :=
    whereEq_eq_nil hr' 0
  refine ⟨⟨by rw [heqc]; norm_num, ?_⟩, ⟨by rw [heqr]; norm_num, ?_⟩⟩
  · simp [_focal, hne, heqc, gather_nd]
  · simp [_smooth_l1, heqr, gather_nd]

/-- C2 (amended). Below the threshold `1 / sigma_squared` the per-element
smooth-L1 loss is the quadratic branch
`0.5 * exp (-sigma_var) * d ^ 2 + 0.5 * sigma_var`; for a single positive
anchor whose four-channel prediction equals its target (all diffs `0`), each
of the four elements contributes `0.5 * sigma_var`, so the returned scalar is
`2 * sigma_var` (not `0.5 * sigma_var`). -/
theorem smooth_l1_quadratic_branch :
    (∀ sigma_squared sv d : ℝ, d < 1 / sigma_squared →
      smooth_l1_elem sigma_squared sv d = 0.5 * Real.exp (-sv) * d ^ 2 + 0.5 * sv)
    ∧ (∀ sigma sv t1 t2 t3 t4 : ℝ, sigma ≠ 0 →
      _smooth_l1 sigma sv [[t1, t2, t3, t4, 1]] [[t1, t2, t3, t4]] = 2 * sv) := by
  constructor
  · intro sigma_squared sv d h
    rw [smooth_l1_elem, if_pos h, smooth_l1_quad, Real.exp_neg]
    ring
  · intro sigma sv t1 t2 t3 t4 hs
    have h2 : (0:ℝ) < sigma ^ 2 := pow_two_pos_of_ne_zero hs
    have h9 : (0:ℝ) < 1 / sigma ^ 2 := by positivity
    have helem : smooth_l1_elem (sigma ^ 2) sv 0 = 0.5 * sv := by
      rw [smooth_l1_elem, if_pos h9, smooth_l1_quad]
      ring
    simp only [_smooth_l1, anchorStates, List.map_cons, List.map_nil]
    norm_num [whereEq, gather_nd, List.filterMap_cons, List.filterMap_nil,
      List.dropLast, sub_self, abs_zero, helem]
    ring

/-- C2 (counterexample). For the single positive anchor `[0,0,0,0,1]` with
prediction `[0,0,0,0]` (all diffs `0`), constructor parameter `sigma = 3` and
`sigma_var = 2`, the returned scalar is `4`, not `0.5 * sigma_var = 1`. -/
theorem smooth_l1_scalar_not_half_sigma :
    _smooth_l1 3 2 [[0, 0, 0, 0, 1]] [[0, 0, 0, 0]] ≠ 0.5 * 2 := by
  have helem : smooth_l1_elem (9:ℝ) 2 0 = 1 := by
    rw [smooth_l1_elem, if_pos (by norm_num : (0:ℝ) < 1 / (9:ℝ)), smooth_l1_quad]
    norm_num
  simp only [_smooth_l1, anchorStates, List.map_cons, List.map_nil]
  norm_num [whereEq, gather_nd, List.filterMap_cons, List.filterMap_nil,
    List.dropLast, sub_self, abs_zero, helem]

/-- C2 (witness). Concrete instantiation of both parts of the amended claim:
at `sigma_squared = 9`, `sigma_var = 0`, `d = 0` the quadratic branch applies,
and for a coinciding prediction/target pair with `sigma = 3`, `sigma_var = 1`
the returned scalar is `2 * 1`. -/
theorem smooth_l1_quadratic_branch_witness :
    ((0:ℝ) < 1 / 9 ∧ smooth_l1_elem 9 0 0 = 0.5 * Real.exp (-0) * 0 ^ 2 + 0.5 * 0)
    ∧ ((3:ℝ) ≠ 0 ∧ _smooth_l1 3 1 [[5, 6, 7, 8, 1]] [[5, 6, 7, 8]] = 2 * 1) :=
  ⟨⟨by norm_num, smooth_l1_quadratic_branch.1 9 0 0 (by norm_num)⟩,
   ⟨by norm_num, smooth_l1_quadratic_branch.2 3 1 5 6 7 8 (by norm_num)⟩⟩

/-- C3 (amended). The quadratic branch and the erf/log branch of the
smooth-L1 loss agree at the boundary point `d = 1 / sigma_squared` when
`sigma = 1` (`sigma_squared = 1`), for every `sigma_var`; the claimed
agreement fails for the default `sigma = 3` (see the counterexample). -/
theorem smooth_l1_branches_agree_at_sigma_one (sv : ℝ) :
    smooth_l1_quad ((1:ℝ) ^ 2) sv (1 / (1:ℝ) ^ 2)
      = smooth_l1_log ((1:ℝ) ^ 2) sv (1 / (1:ℝ) ^ 2) := by
  unfold smooth_l1_quad smooth_l1_log
  norm_num

theorem whereEq_length_countP (v : ℝ) (xs : List ℝ) :
    ∀ k, (whereEq v xs k).length = xs.countP fun s => decide (s = v) := by
  induction xs with
  | nil => intro k; rfl
  | cons x rest ih =>
    intro k
    by_cases hx : x = v
    · simp [whereEq, if_pos hx, ih, List.countP_cons, hx]
    · simp [whereEq, if_neg hx, ih, List.countP_cons, hx]

/-- C1 (witness). Concrete batches: one classification anchor with state
`-1` and one regression anchor with state `0`; both losses return `0`. -/
theorem all_ignored_losses_zero_witness :
    ((∀ r ∈ ([[0, -1]] : List (List ℝ)), r.getLastD 0 = -1)
      ∧ ∀ r ∈ ([[1, 2, 3, 4, 0]] : List (List ℝ)), r.getLastD 0 ≠ 1)
    ∧ (_focal 0.1 2 0.5 0 [[0, -1]] [[0.3]] = 0
      ∧ _smooth_l1 3 0 [[1, 2, 3, 4, 0]] [[1, 2, 3, 4]] = 0) := by
  have h := all_ignored_losses_zero 0.1 2 0.5 0 3 0 [[0, -1]] [[0.3]]
    [[1, 2, 3, 4, 0]] [[1, 2, 3, 4]] (by norm_num) (by norm_num)
  exact ⟨⟨by norm_num, by norm_num⟩, h.1.2, h.2.2⟩

/-- C6. The focal loss's normalizer is the number of anchors in the full
(unfiltered) anchor-state channel, over the whole batch, whose state equals
`1`, floored at `1`; the returned scalar is the sum of all per-element losses
divided by this normalizer. -/
theorem focal_normalizer_counts_positives (alpha gamma cutoff sigma_var : ℝ)
    (y_true y_pred : List (List ℝ)) :
    _focal alpha gamma cutoff sigma_var y_true y_pred
      = focal_sum alpha gamma cutoff sigma_var y_true y_pred
        / max 1 ((((anchorStates y_true).countP fun s => decide (s = 1)) : ℕ) : ℝ) := by
  simp only [_focal, focal_sum, whereEq_length_countP]

theorem focal_elem_alpha_half_gamma_zero (cutoff sigma_var l p : ℝ) :
    focal_elem 0.5 0 cutoff sigma_var l p = 0.5 * focal_ce sigma_var l p := by
  unfold focal_elem alpha_factor
  rw [Real.rpow_zero]
  split <;> ring

/-- C8. With `alpha = 0.5` and `gamma = 0` the combined focal weight (alpha
factor times the uncertainty-scaled weight raised to `gamma`) is the constant
`0.5` for every element, so the returned loss is `0.5` times the sum of the
scaled cross-entropy terms divided by the normalizer. -/
theorem focal_alpha_half_gamma_zero (cutoff sigma_var : ℝ)
    (y_true y_pred : List (List ℝ)) :
    (∀ l p : ℝ,
      alpha_factor 0.5 cutoff l * focal_weight cutoff sigma_var l p ^ (0:ℝ) = 0.5)
    ∧ _focal 0.5 0 cutoff sigma_var y_true y_pred
        = 0.5 * focal_ce_loss sigma_var y_true y_pred := by
  constructor
  · intro l p
    rw [Real.rpow_zero, alpha_factor]
    split <;> ring
  · have hrow : ∀ lp : List ℝ × List ℝ,
        ((lp.1.zip lp.2).map fun xy => focal_elem 0.5 0 cutoff sigma_var xy.1 xy.2).sum
          = 0.5 * ((lp.1.zip lp.2).map fun xy => focal_ce sigma_var xy.1 xy.2).sum := by
      intro lp
      rw [← List.sum_map_mul_left]
      congr 1
      apply List.map_congr_left
      intro xy _
      exact focal_elem_alpha_half_gamma_zero cutoff sigma_var xy.1 xy.2
    simp only [_focal, focal_ce_loss]
    rw [List.map_congr_left (fun lp _ => hrow lp), List.sum_map_mul_left,
      mul_div_assoc]

/-- C9. Each constructor returns a pair of a loss closure and the uncertainty
variable; when no variable is supplied a fresh trainable scalar with initial
value `0` (named as in the code) is created and returned, and the returned
closure reads exactly that variable's current value from the store; when a
variable is supplied, it is the one returned. -/
theorem constructors_return_pair (alpha gamma cutoff sigma : ℝ) :
    ((focal alpha gamma cutoff none).2 = ⟨"sigma_sq_focal", 0, true⟩
      ∧ (focal alpha gamma cutoff none).2.initial_value = 0
      ∧ (focal alpha gamma cutoff none).2.trainable = true
      ∧ ∀ (store : Store) (y_true y_pred : List (List ℝ)),
          (focal alpha gamma cutoff none).1 store y_true y_pred
            = _focal alpha gamma cutoff
                (store (focal alpha gamma cutoff none).2.name) y_true y_pred)
    ∧ ((smooth_l1 sigma none).2 = ⟨"sigma_sq_smooth_l1", 0, true⟩
      ∧ (smooth_l1 sigma none).2.initial_value = 0
      ∧ (smooth_l1 sigma none).2.trainable = true
      ∧ ∀ (store : Store) (y_true y_pred : List (List ℝ)),
          (smooth_l1 sigma none).1 store y_true y_pred
            = _smooth_l1 sigma (store (smooth_l1 sigma none).2.name) y_true y_pred)
    ∧ ∀ v : TFVariable,
        (focal alpha gamma cutoff (some v)).2 = v
          ∧ (smooth_l1 sigma (some v)).2 = v
          ∧ (∀ (store : Store) (y_true y_pred : List (List ℝ)),
              (focal alpha gamma cutoff (some v)).1 store y_true y_pred
                = _focal alpha gamma cutoff (store v.name) y_true y_pred)
          ∧ ∀ (store : Store) (y_true y_pred : List (List ℝ)),
              (smooth_l1 sigma (some v)).1 store y_true y_pred
                = _smooth_l1 sigma (store v.name) y_true y_pred :=
  ⟨⟨rfl, rfl, rfl, fun _ _ _ => rfl⟩,
   ⟨rfl, rfl, rfl, fun _ _ _ => rfl⟩,
   fun _ => ⟨rfl, rfl, fun _ _ _ => rfl, fun _ _ _ => rfl⟩⟩

/-- C10. Evaluating either returned loss closure leaves the variable store
unchanged, and the returned value only reads the captured variable: two
stores that agree on that variable's value give the same loss. -/
theorem losses_do_not_mutate_sigma (alpha gamma cutoff sigma : ℝ)
    (svF svS : Option TFVariable) (store : Store) (y_true y_pred : List (List ℝ)) :
    (eval_loss ((focal alpha gamma cutoff svF).1) store y_true y_pred).2 = store
    ∧ (eval_loss ((smooth_l1 sigma svS).1) store y_true y_pred).2 = store
    ∧ (∀ store2 : Store,
        store ((focal alpha gamma cutoff svF).2.name)
            = store2 ((focal alpha gamma cutoff svF).2.name) →
        (focal alpha gamma cutoff svF).1 store y_true y_pred
          = (focal alpha gamma cutoff svF).1 store2 y_true y_pred)
    ∧ ∀ store2 : Store,
        store ((smooth_l1 sigma svS).2.name)
            = store2 ((smooth_l1 sigma svS).2.name) →
        (smooth_l1 sigma svS).1 store y_true y_pred
          = (smooth_l1 sigma svS).1 store2 y_true y_pred := by
  refine ⟨rfl, rfl, ?_, ?_⟩
  · intro store2 h
    simp only [focal] at h ⊢
    rw [h]
  · intro store2 h
    simp only [smooth_l1] at h ⊢
    rw [h]

/-- C10 (witness). Concrete evaluation: the store passes through unchanged
and agreement on the captured variable gives equal results. -/
theorem losses_do_not_mutate_sigma_witness :
    ((eval_loss ((focal 0.1 2 0.5 none).1) (fun _ => 0) [] []).2 = fun _ => (0:ℝ))
    ∧ (focal 0.1 2 0.5 none).1 (fun _ => 0) [] []
        = (focal 0.1 2 0.5 none).1 (fun _ => 0) [] [] :=
  ⟨(losses_do_not_mutate_sigma 0.1 2 0.5 3 none none (fun _ => 0) [] []).1,
   (losses_do_not_mutate_sigma 0.1 2 0.5 3 none none (fun _ => 0) [] []).2.2.1
     (fun _ => 0) rfl⟩

theorem binary_crossentropy_nonneg {l : ℝ} (p : ℝ) (h0 : 0 ≤ l) (h1 : l ≤ 1) :
    0 ≤ binary_crossentropy l p := by
  simp only [binary_crossentropy, kerasEpsilon]
  set o := max (1e-7 : ℝ) (min (1 - 1e-7) p) with ho
  have ho1 : (0:ℝ) < o := lt_of_lt_of_le (by norm_num) (le_max_left _ _)
  have ho2 : o ≤ 1 := max_le (by norm_num) (le_trans (min_le_left _ _) (by norm_num))
  have hoe : (1e-7 : ℝ) ≤ o := le_max_left _ _
  have ho3 : o ≤ 1 - 1e-7 := max_le (by norm_num) (min_le_left _ _)
  have hl1 : Real.log o ≤ 0 := Real.log_nonpos ho1.le ho2
  have hl2 : Real.log (1 - o) ≤ 0 := Real.log_nonpos (by linarith) (by linarith)
  nlinarith [mul_nonneg h0 (neg_nonneg.mpr hl1),
    mul_nonneg (by linarith : (0:ℝ) ≤ 1 - l) (neg_nonneg.mpr hl2)]

theorem focal_weight_nonneg {sigma_var p : ℝ} (cutoff l : ℝ)
    (hp0 : 0 ≤ p) (hp1 : p ≤ 1) :
    0 ≤ focal_weight cutoff sigma_var l p := by
  unfold focal_weight
  split
  · exact mul_nonneg (Real.rpow_nonneg (by linarith) _) (Real.exp_pos _).le
  · exact mul_nonneg (Real.rpow_nonneg (by linarith) _) (Real.exp_pos _).le

theorem focal_elem_nonneg {alpha sigma_var l p : ℝ} (gamma cutoff : ℝ)
    (ha0 : 0 ≤ alpha) (ha1 : alpha ≤ 1) (hsv : 0 ≤ sigma_var)
    (hl0 : 0 ≤ l) (hl1 : l ≤ 1) (hp0 : 0 ≤ p) (hp1 : p ≤ 1) :
    0 ≤ focal_elem alpha gamma cutoff sigma_var l p := by
  unfold focal_elem
  apply mul_nonneg (mul_nonneg ?_ ?_) ?_
  · unfold alpha_factor
    split
    · exact ha0
    · linarith
  · exact Real.rpow_nonneg (focal_weight_nonneg cutoff l hp0 hp1) gamma
  · unfold focal_ce
    have := binary_crossentropy_nonneg p hl0 hl1
    have := (Real.exp_pos (-sigma_var)).le
    positivity

theorem mem_gather_nd {rows : List (List ℝ)} {idx : List ℕ} {r : List ℝ}
    (h : r ∈ gather_nd rows idx) : r ∈ rows := by
  unfold gather_nd at h
  rcases List.mem_filterMap.mp h with ⟨i, _, hi⟩
  exact List.get?_mem hi

/-- C5. For every ground-truth tensor with anchor states in `{-1, 0, 1}` and
label entries in `[0, 1]`, and every prediction tensor with entries in
`[0, 1]`, the scalar returned by the focal loss is non-negative (stated for
any class weight `alpha` in `[0, 1]` — the default is `0.1` — and any
non-negative `sigma_var` — its initial value is `0`). -/
theorem focal_loss_nonneg (alpha gamma cutoff sigma_var : ℝ)
    (y_true y_pred : List (List ℝ))
    (ha0 : 0 ≤ alpha) (ha1 : alpha ≤ 1) (hsv : 0 ≤ sigma_var)
    (_hstate : ∀ r ∈ y_true, r.getLastD 0 = -1 ∨ r.getLastD 0 = 0 ∨ r.getLastD 0 = 1)
    (hlab : ∀ r ∈ y_true, ∀ l ∈ r.dropLast, 0 ≤ l ∧ l ≤ 1)
    (hpred : ∀ r ∈ y_pred, ∀ p ∈ r, 0 ≤ p ∧ p ≤ 1) :
    0 ≤ _focal alpha gamma cutoff sigma_var y_true y_pred := by
  simp only [_focal]
  apply div_nonneg
  · apply List.sum_nonneg
    intro x hx
    rcases List.mem_map.mp hx with ⟨lp, hlp, rfl⟩
    apply List.sum_nonneg
    intro y hy
    rcases List.mem_map.mp hy with ⟨⟨a, b⟩, hab, rfl⟩
    obtain ⟨ha, hb⟩ := List.of_mem_zip hab
    obtain ⟨hlp1, hlp2⟩ := List.of_mem_zip hlp
    have h1 : lp.1 ∈ y_true.map List.dropLast := mem_gather_nd hlp1
    have h2 : lp.2 ∈ y_pred := mem_gather_nd hlp2
    rcases List.mem_map.mp h1 with ⟨r, hr, hrd⟩
    have hlab' := hlab r hr a (by rw [hrd]; exact ha)
    have hpred' := hpred lp.2 h2 b hb
    exact focal_elem_nonneg gamma cutoff ha0 ha1 hsv hlab'.1 hlab'.2 hpred'.1 hpred'.2
  · exact le_trans zero_le_one (le_max_left _ _)

/-- C5 (witness). Concrete valid batch: one anchor with label `1`, state `1`
and prediction `0.5`; the focal loss is non-negative. -/
theorem focal_loss_nonneg_witness :
    ((0:ℝ) ≤ 0.1 ∧ (0.1:ℝ) ≤ 1 ∧ (0:ℝ) ≤ 0
      ∧ (∀ r ∈ ([[1, 1]] : List (List ℝ)),
          r.getLastD 0 = -1 ∨ r.getLastD 0 = 0 ∨ r.getLastD 0 = 1)
      ∧ (∀ r ∈ ([[1, 1]] : List (List ℝ)), ∀ l ∈ r.dropLast, 0 ≤ l ∧ l ≤ 1)
      ∧ (∀ r ∈ ([[0.5]] : List (List ℝ)), ∀ p ∈ r, 0 ≤ p ∧ p ≤ 1))
    ∧ 0 ≤ _focal 0.1 2 0.5 0 [[1, 1]] [[0.5]] :=
  ⟨⟨by norm_num, by norm_num, le_refl 0, by norm_num, by norm_num, by norm_num⟩,
   focal_loss_nonneg 0.1 2 0.5 0 [[1, 1]] [[0.5]] (by norm_num) (by norm_num)
     (le_refl 0) (by norm_num) (by norm_num) (by norm_num)⟩

theorem anchorStates_cons (r : List ℝ) (rest : List (List ℝ)) :
    anchorStates (r :: rest) = r.getLastD 0 :: anchorStates rest := rfl

theorem whereEq_succ (v : ℝ) (xs : List ℝ) :
    ∀ k, whereEq v xs (k + 1) = (whereEq v xs k).map (fun i => i + 1) := by
  induction xs with
  | nil => intro k; rfl
  | cons x rest ih =>
    intro k
    by_cases hx : x = v
    · simp only [whereEq, if_pos hx, List.map_cons, ih (k + 1)]
    · simp only [whereEq, if_neg hx, ih (k + 1)]

theorem gather_nd_map_succ (a : List ℝ) (rows : List (List ℝ)) (idx : List ℕ) :
    gather_nd (a :: rows) (idx.map (fun i => i + 1)) = gather_nd rows idx := by
  unfold gather_nd
  rw [List.filterMap_map]
  rfl

theorem gather_nd_whereEq (v : ℝ) :
    ∀ yt ys : List (List ℝ), yt.length = ys.length →
    gather_nd ys (whereEq v (anchorStates yt) 0)
      = ((yt.zip ys).filter fun q => decide (q.1.getLastD 0 = v)).map Prod.snd := by
  intro yt
  induction yt with
  | nil =>
    intro ys h
    cases ys with
    | nil => rfl
    | cons p ps => simp at h
  | cons r rest ih =>
    intro ys h
    cases ys with
    | nil => simp at h
    | cons p ps =>
      have hlen : rest.length = ps.length := by simpa using h
      have hcons : ∀ l : List ℕ, gather_nd (p :: ps) (0 :: l) = p :: gather_nd (p :: ps) l := by
        intro l
        simp [gather_nd, List.filterMap_cons]
      rw [anchorStates_cons]
      by_cases hv : r.getLastD 0 = v
      · have h1 : whereEq v (r.getLastD 0 :: anchorStates rest) 0
            = 0 :: (whereEq v (anchorStates rest) 0).map (fun i => i + 1) := by
          simp only [whereEq, if_pos hv, whereEq_succ]
        have h3 : ((r :: rest).zip (p :: ps)).filter (fun q => decide (q.1.getLastD 0 = v))
            = (r, p) :: ((rest.zip ps).filter fun q => decide (q.1.getLastD 0 = v)) := by
          simp only [List.zip_cons_cons, List.filter_cons]
          rw [if_pos (decide_eq_true hv : decide ((r, p).1.getLastD 0 = v) = true)]
        rw [h1, hcons, gather_nd_map_succ, h3, List.map_cons, ih ps hlen]
      · have h1 : whereEq v (r.getLastD 0 :: anchorStates rest) 0
            = (whereEq v (anchorStates rest) 0).map (fun i => i + 1) := by
          simp only [whereEq, if_neg hv, whereEq_succ]
        have h3 : ((r :: rest).zip (p :: ps)).filter (fun q => decide (q.1.getLastD 0 = v))
            = (rest.zip ps).filter fun q => decide (q.1.getLastD 0 = v) := by
          simp only [List.zip_cons_cons, List.filter_cons]
          rw [if_neg (by simp only [decide_eq_true_eq]; exact hv :
            ¬decide ((r, p).1.getLastD 0 = v) = true)]
        rw [h1, gather_nd_map_succ, h3, ih ps hlen]

theorem zip_map_snd_filter_fst (v : ℝ) (f : List ℝ → List ℝ) :
    ∀ yt : List (List ℝ),
    ((yt.zip (yt.map f)).filter fun q => decide (q.1.getLastD 0 = v)).map Prod.snd
      = (yt.filter fun r => decide (r.getLastD 0 = v)).map f := by
  intro yt
  induction yt with
  | nil => rfl
  | cons r rest ih =>
    simp only [List.map_cons, List.zip_cons_cons, List.filter_cons]
    by_cases hr : r.getLastD 0 = v
    · rw [if_pos (decide_eq_true hr : decide ((r, f r).1.getLastD 0 = v) = true),
        if_pos (decide_eq_true hr : decide (r.getLastD 0 = v) = true),
        List.map_cons, List.map_cons, ih]
    · rw [if_neg (by simp only [decide_eq_true_eq]; exact hr :
          ¬decide ((r, f r).1.getLastD 0 = v) = true),
        if_neg (by simp only [decide_eq_true_eq]; exact hr :
          ¬decide (r.getLastD 0 = v) = true), ih]

theorem zip_filter_fst_map_fst (v : ℝ) (g : List ℝ → List ℝ) :
    ∀ yt yp : List (List ℝ), yt.length = yp.length →
    ((yt.zip yp).filter fun q => decide (q.1.getLastD 0 = v)).map (fun q => g q.1)
      = (yt.filter fun r => decide (r.getLastD 0 = v)).map g := by
  intro yt
  induction yt with
  | nil => intro yp h; rfl
  | cons r rest ih =>
    intro yp h
    cases yp with
    | nil => simp at h
    | cons p ps =>
      have hlen : rest.length = ps.length := by simpa using h
      simp only [List.zip_cons_cons, List.filter_cons]
      by_cases hr : r.getLastD 0 = v
      · rw [if_pos (decide_eq_true hr : decide ((r, p).1.getLastD 0 = v) = true),
          if_pos (decide_eq_true hr : decide (r.getLastD 0 = v) = true),
          List.map_cons, List.map_cons, ih ps hlen]
      · rw [if_neg (by simp only [decide_eq_true_eq]; exact hr :
            ¬decide ((r, p).1.getLastD 0 = v) = true),
          if_neg (by simp only [decide_eq_true_eq]; exact hr :
            ¬decide (r.getLastD 0 = v) = true), ih ps hlen]

theorem countP_zip_fst (v : ℝ) :
    ∀ yt yp : List (List ℝ), yt.length = yp.length →
    ((yt.zip yp).countP fun q => decide (q.1.getLastD 0 = v))
      = yt.countP fun r => decide (r.getLastD 0 = v) := by
  intro yt
  induction yt with
  | nil => intro yp h; rfl
  | cons r rest ih =>
    intro yp h
    cases yp with
    | nil => simp at h
    | cons p ps =>
      have hlen : rest.length = ps.length := by simpa using h
      simp only [List.zip_cons_cons, List.countP_cons, ih ps hlen]

/-- C7. The smooth-L1 loss computes its per-element losses only over anchors
whose state equals `1`: the single shared index set selects exactly the rows
at positive-state positions from both the prediction tensor and the
regression-target tensor, and the returned loss is unchanged when all
non-positive rows are removed (at the same positions) from both tensors. -/
theorem smooth_l1_positive_anchors_only (sigma sigma_var : ℝ)
    (y_true y_pred : List (List ℝ)) (h : y_true.length = y_pred.length) :
    gather_nd y_pred (whereEq 1 (anchorStates y_true) 0)
      = ((y_true.zip y_pred).filter fun q => decide (q.1.getLastD 0 = 1)).map Prod.snd
    ∧ gather_nd (y_true.map List.dropLast) (whereEq 1 (anchorStates y_true) 0)
      = ((y_true.zip y_pred).filter fun q => decide (q.1.getLastD 0 = 1)).map
          (fun q => q.1.dropLast)
    ∧ _smooth_l1 sigma sigma_var y_true y_pred
      = _smooth_l1 sigma sigma_var
          (((y_true.zip y_pred).filter fun q => decide (q.1.getLastD 0 = 1)).map Prod.fst)
          (((y_true.zip y_pred).filter fun q => decide (q.1.getLastD 0 = 1)).map Prod.snd) := by
  set F := (y_true.zip y_pred).filter (fun q => decide (q.1.getLastD 0 = 1)) with hF
  have hpart1 : gather_nd y_pred (whereEq 1 (anchorStates y_true) 0) = F.map Prod.snd :=
    gather_nd_whereEq 1 y_true y_pred h
  have hpart2 : gather_nd (y_true.map List.dropLast) (whereEq 1 (anchorStates y_true) 0)
      = F.map (fun q => q.1.dropLast) := by
    rw [gather_nd_whereEq 1 y_true (y_true.map List.dropLast) (by simp),
      zip_map_snd_filter_fst 1 List.dropLast y_true, hF,
      ← zip_filter_fst_map_fst 1 List.dropLast y_true y_pred h]
  refine ⟨hpart1, hpart2, ?_⟩
  have hprlen : (F.map Prod.fst).length = (F.map Prod.snd).length := by simp
  have hall : ∀ r ∈ F.map Prod.fst, r.getLastD 0 = 1 := by
    intro r hr
    rcases List.mem_map.mp hr with ⟨q, hq, rfl⟩
    exact of_decide_eq_true (List.mem_filter.mp hq).2
  have hg1 : gather_nd (F.map Prod.snd) (whereEq 1 (anchorStates (F.map Prod.fst)) 0)
      = F.map Prod.snd := by
    rw [gather_nd_whereEq 1 _ _ hprlen, List.filter_eq_self.mpr ?_]
    · exact List.map_snd_zip _ _ (le_of_eq hprlen.symm)
    · rintro ⟨a, b⟩ hq
      exact decide_eq_true (hall a (List.of_mem_zip hq).1)
  have hg2 : gather_nd ((F.map Prod.fst).map List.dropLast)
        (whereEq 1 (anchorStates (F.map Prod.fst)) 0)
      = (F.map Prod.fst).map List.dropLast := by
    rw [gather_nd_whereEq 1 _ _ (by simp),
      zip_map_snd_filter_fst 1 List.dropLast (F.map Prod.fst),
      List.filter_eq_self.mpr ?_]
    intro r hr
    exact decide_eq_true (hall r hr)
  have e1 : ((anchorStates (F.map Prod.fst)).countP fun s => decide (s = 1))
      = F.length := by
    rw [anchorStates, List.countP_map]
    rw [List.countP_eq_length.mpr ?_, List.length_map]
    intro r hr
    exact decide_eq_true (hall r hr)
  have e2 : ((anchorStates y_true).countP fun s => decide (s = 1)) = F.length := by
    rw [anchorStates, List.countP_map]
    simp only [Function.comp_def]
    rw [← countP_zip_fst 1 y_true y_pred h, hF, ← List.countP_eq_length_filter]
  have hnorm : (whereEq 1 (anchorStates (F.map Prod.fst)) 0).length
      = (whereEq 1 (anchorStates y_true) 0).length := by
    rw [whereEq_length_countP, whereEq_length_countP, e1, e2]
  simp only [_smooth_l1]
  rw [hpart1, hpart2, hg1, hg2, hnorm, List.map_map]
  rfl

/-- C7 (witness). Concrete pair of tensors of equal row count: one positive
anchor and one ignored anchor; the selected rows and the loss equality are as
the theorem states. -/
theorem smooth_l1_positive_anchors_only_witness :
    ([[1, 2, 1], [3, 4, -1]] : List (List ℝ)).length
        = ([[5, 6], [7, 8]] : List (List ℝ)).length
    ∧ (gather_nd [[5, 6], [7, 8]] (whereEq 1 (anchorStates [[1, 2, 1], [3, 4, -1]]) 0)
        = ((([[1, 2, 1], [3, 4, -1]] : List (List ℝ)).zip
            ([[5, 6], [7, 8]] : List (List ℝ))).filter
              fun q => decide (q.1.getLastD 0 = 1)).map Prod.snd
      ∧ gather_nd (([[1, 2, 1], [3, 4, -1]] : List (List ℝ)).map List.dropLast)
            (whereEq 1 (anchorStates [[1, 2, 1], [3, 4, -1]]) 0)
        = ((([[1, 2, 1], [3, 4, -1]] : List (List ℝ)).zip
            ([[5, 6], [7, 8]] : List (List ℝ))).filter
              fun q => decide (q.1.getLastD 0 = 1)).map (fun q => q.1.dropLast)
      ∧ _smooth_l1 3 0 [[1, 2, 1], [3, 4, -1]] [[5, 6], [7, 8]]
        = _smooth_l1 3 0
            (((([[1, 2, 1], [3, 4, -1]] : List (List ℝ)).zip
              ([[5, 6], [7, 8]] : List (List ℝ))).filter
                fun q => decide (q.1.getLastD 0 = 1)).map Prod.fst)
            (((([[1, 2, 1], [3, 4, -1]] : List (List ℝ)).zip
              ([[5, 6], [7, 8]] : List (List ℝ))).filter
                fun q => decide (q.1.getLastD 0 = 1)).map Prod.snd)) :=
  ⟨rfl, smooth_l1_positive_anchors_only 3 0 [[1, 2, 1], [3, 4, -1]] [[5, 6], [7, 8]] rfl⟩

/-- C3 (counterexample). For the default constructor parameter `sigma = 3`
(`sigma_squared = 9`) and `sigma_var = 0`, the quadratic branch exceeds the
erf/log branch at the boundary point `d = 1/9` by more than `1/100`, so the
two branches do not evaluate to equal values there (not even up to
floating-point tolerance): the piecewise loss is discontinuous at the branch
boundary for the default `sigma`. -/
theorem smooth_l1_branches_differ_at_sigma_three :
    smooth_l1_quad ((3:ℝ) ^ 2) 0 (1 / (3:ℝ) ^ 2)
      - smooth_l1_log ((3:ℝ) ^ 2) 0 (1 / (3:ℝ) ^ 2) > 1 / 100 := by
  have key : smooth_l1_quad ((3:ℝ) ^ 2) 0 (1 / (3:ℝ) ^ 2)
      - smooth_l1_log ((3:ℝ) ^ 2) 0 (1 / (3:ℝ) ^ 2)
      = -(80 / 81) * Real.log (1 - erf (Real.sqrt (1 / 2) / 9)) := by
    unfold smooth_l1_quad smooth_l1_log
    rw [Real.exp_zero, show (1:ℝ) / (2 * 1) = 1 / 2 by norm_num,
      show ((3:ℝ) ^ 2) = 9 by norm_num]
    ring
  rw [key]
  set x := Real.sqrt (1 / 2) / 9 with hx
  have hs2a : (0.7:ℝ) ≤ Real.sqrt (1 / 2) := by
    nlinarith [Real.sq_sqrt (by norm_num : (0:ℝ) ≤ 1 / 2),
      Real.sqrt_nonneg (1 / 2 : ℝ)]
  have hs2b : Real.sqrt (1 / 2) ≤ 0.75 := by
    nlinarith [Real.sq_sqrt (by norm_num : (0:ℝ) ≤ 1 / 2),
      Real.sqrt_nonneg (1 / 2 : ℝ)]
  have hx0 : 0 ≤ x := by rw [hx]; positivity
  have hxa : (7 / 90 : ℝ) ≤ x := by rw [hx]; linarith
  have hxb : x ≤ 1 / 12 := by rw [hx]; linarith
  have hcont : Continuous fun t : ℝ => Real.exp (-(t ^ 2)) :=
    Real.continuous_exp.comp (continuous_pow 2).neg
  have hint : IntervalIntegrable (fun t : ℝ => Real.exp (-(t ^ 2)))
      MeasureTheory.volume 0 x := hcont.intervalIntegrable 0 x
  have hIlow : x * Real.exp (-(x ^ 2)) ≤ ∫ t in (0:ℝ)..x, Real.exp (-(t ^ 2)) := by
    have h := intervalIntegral.integral_mono_on
      (f := fun _ : ℝ => Real.exp (-(x ^ 2))) (g := fun t : ℝ => Real.exp (-(t ^ 2)))
      hx0 (continuous_const.intervalIntegrable 0 x) hint
      (fun t ht => Real.exp_le_exp.mpr (by nlinarith [ht.1, ht.2]))
    rw [intervalIntegral.integral_const] at h
    simpa using h
  have hIup : (∫ t in (0:ℝ)..x, Real.exp (-(t ^ 2))) ≤ x := by
    have h := intervalIntegral.integral_mono_on
      (f := fun t : ℝ => Real.exp (-(t ^ 2))) (g := fun _ : ℝ => (1:ℝ))
      hx0 hint (continuous_const.intervalIntegrable 0 x)
      (fun t ht => by
        have h1 : Real.exp (-(t ^ 2)) ≤ Real.exp 0 :=
          Real.exp_le_exp.mpr (by nlinarith [ht.1])
        simpa [Real.exp_zero] using h1)
    rw [intervalIntegral.integral_const] at h
    simpa using h
  have hexpx : 1 - x ^ 2 ≤ Real.exp (-(x ^ 2)) := by
    have := Real.add_one_le_exp (-(x ^ 2))
    linarith
  have hxsq : x ^ 2 ≤ 1 / 144 := by nlinarith [hxb, hx0]
  have hIlow2 : (7 / 90 : ℝ) * (143 / 144) ≤ ∫ t in (0:ℝ)..x, Real.exp (-(t ^ 2)) := by
    have h1 : (143 / 144 : ℝ) ≤ Real.exp (-(x ^ 2)) := by linarith
    calc (7 / 90 : ℝ) * (143 / 144)
        ≤ x * Real.exp (-(x ^ 2)) := by
          exact mul_le_mul hxa h1 (by norm_num) hx0
      _ ≤ _ := hIlow
  have hIa : (0:ℝ) ≤ ∫ t in (0:ℝ)..x, Real.exp (-(t ^ 2)) :=
    le_trans (by norm_num) hIlow2
  have hpi1 : Real.sqrt Real.pi ≤ 2 := by
    nlinarith [Real.sq_sqrt Real.pi_pos.le, Real.sqrt_nonneg Real.pi, Real.pi_le_four]
  have hpi2 : (1.7:ℝ) ≤ Real.sqrt Real.pi := by
    nlinarith [Real.sq_sqrt Real.pi_pos.le, Real.sqrt_nonneg Real.pi, Real.pi_gt_three]
  have hpip : (0:ℝ) < Real.sqrt Real.pi := lt_of_lt_of_le (by norm_num) hpi2
  have herf1 : (7 / 90 : ℝ) * (143 / 144) ≤ erf x := by
    have h2 : (1:ℝ) ≤ 2 / Real.sqrt Real.pi := by
      rw [le_div_iff₀ hpip]
      linarith
    calc (7 / 90 : ℝ) * (143 / 144) ≤ ∫ t in (0:ℝ)..x, Real.exp (-(t ^ 2)) := hIlow2
      _ = 1 * ∫ t in (0:ℝ)..x, Real.exp (-(t ^ 2)) := (one_mul _).symm
      _ ≤ (2 / Real.sqrt Real.pi) * ∫ t in (0:ℝ)..x, Real.exp (-(t ^ 2)) :=
          mul_le_mul_of_nonneg_right h2 hIa
      _ = erf x := rfl
  have herf2 : erf x ≤ (20 / 17 : ℝ) * (1 / 12) := by
    have h2 : 2 / Real.sqrt Real.pi ≤ 20 / 17 := by
      rw [div_le_iff₀ hpip]
      nlinarith [hpi2]
    have hIx : (∫ t in (0:ℝ)..x, Real.exp (-(t ^ 2))) ≤ 1 / 12 := le_trans hIup hxb
    calc erf x = (2 / Real.sqrt Real.pi) * ∫ t in (0:ℝ)..x, Real.exp (-(t ^ 2)) := rfl
      _ ≤ (20 / 17 : ℝ) * (1 / 12) := mul_le_mul h2 hIx hIa (by norm_num)
  have hpos : (0:ℝ) < 1 - erf x := by
    have : erf x < 1 := lt_of_le_of_lt herf2 (by norm_num)
    linarith
  have hlog : Real.log (1 - erf x) ≤ -(erf x) := by
    have := Real.log_le_sub_one_of_pos hpos
    linarith
  have hLbound : Real.log (1 - erf x) ≤ -(1001 / 12960 : ℝ) := by
    have h1 : (1001 / 12960 : ℝ) = (7 / 90) * (143 / 144) := by norm_num
    rw [h1]
    linarith
  nlinarith [hLbound]
